import Mathlib

/-!
gofuzz: the permutation engine and the concurrent driver.

A shallow embedding of `internal/fuzzer/fuzzer.go` and of the record type of
`internal/jsluice/jsluice.go`.

Strings. A Go `string` is modelled as a list of characters (`Str`).  The records the
program works on are decoded by `encoding/json`, which yields valid UTF-8 text, and every
separator the program searches for (`?`, `/`) or inserts (`|`, `&`, `=`, `FUZZ`) is ASCII, so
searching and splitting by bytes and by characters agree.

Library functions.  `strings.Contains`, `strings.Split`, `strings.Join` and the `%s` verb of
`fmt.Sprintf` are written out below after their documented behaviour, for arbitrary
separators, and the program calls them exactly as the source does.
-/

namespace GoFuzz

/-- A Go string. -/
abbrev Str := List Char

/-! ## The library functions the program calls -/

/-- Go `strings.HasPrefix(s, prefix)`. -/
def HasPrefix : Str → Str → Bool
  | _, [] => true
  | [], _ :: _ => false
  | c :: cs, p :: ps => c == p && HasPrefix cs ps

/-- Go `strings.Contains(s, substr)`: `substr` occurs somewhere within `s`. -/
def Contains : Str → Str → Bool
  | [], substr => HasPrefix [] substr
  | c :: cs, substr => HasPrefix (c :: cs) substr || Contains cs substr

/-- The scan of `strings.Split` for a non-empty separator: the text up to the first
occurrence of `sep` (or to the end), and the pieces after it.  Occurrences are taken
leftmost first and do not overlap: after one is found, `skip` counts the characters of it
that are still to be passed over. -/
def splitAux (sep : Str) : Nat → Str → Str × List Str
  | _, [] => ([], [])
  | skip + 1, _ :: cs => splitAux sep skip cs
  | 0, c :: cs =>
    if HasPrefix (c :: cs) sep then
      ([], (splitAux sep (sep.length - 1) cs).1 :: (splitAux sep (sep.length - 1) cs).2)
    else
      (c :: (splitAux sep 0 cs).1, (splitAux sep 0 cs).2)

/-- Go `strings.Split(s, sep)`: all substrings of `s` separated by `sep`.  With an empty
separator the string is split after each character. -/
def Split (s sep : Str) : List Str :=
  match sep with
  | [] => s.map (fun c => [c])
  | _ :: _ => (splitAux sep 0 s).1 :: (splitAux sep 0 s).2

/-- Go `strings.Join(elems, sep)`: the elements concatenated, `sep` between neighbours. -/
def Join : List Str → Str → Str
  | [], _ => []
  | [a], _ => a
  | a :: b :: rest, sep => a ++ sep ++ Join (b :: rest) sep

/-! ## `jsluice.JSluiceOutput` -/

/-- The endpoint record (`jsluice.go`, lines 8-15).  `Headers` is a Go map, kept here as its
list of key/value pairs; the field `Type` is written `Type_`, `Type` being reserved. -/
structure JSluiceOutput where
  URL : Str
  QueryParams : List Str
  BodyParams : List Str
  Method : Str
  Headers : List (Str × Str)
  Type_ : Str

/-! ## `generateFuzzedURLsForInput` -/

/-- The substitution marker, the literal `"FUZZ"`. -/
def FUZZ : Str := ['F', 'U', 'Z', 'Z']

/-- Lines 47-50: `baseURL := input.URL`, replaced by `strings.Split(baseURL, "?")[0]` when
it contains `"?"`.  The index 0 is within the slice, as `Split` with a non-empty separator
returns at least one piece. -/
def baseURL (input : JSluiceOutput) : Str :=
  if Contains input.URL ['?'] then
    (Split input.URL ['?']).get ⟨0, Nat.succ_pos _⟩
  else
    input.URL

/-- Lines 54-56 and 64-66: `for _, param := range params` appending
`fmt.Sprintf("%s<sep>%s=FUZZ", baseURL, param)`, where `sep` is `?` or `|`. -/
def appendEach (fuzzedURLs : List Str) (base : Str) (sep : Char) (params : List Str) :
    List Str :=
  params.foldl (fun acc param => acc ++ [base ++ [sep] ++ param ++ ['='] ++ FUZZ]) fuzzedURLs

/-- Lines 58-61 and 67-70: when `len(params) > 0`, append
`fmt.Sprintf("%s<sep>%s", baseURL, strings.Join(params, "=FUZZ&") + "=FUZZ")`. -/
def appendAll (fuzzedURLs : List Str) (base : Str) (sep : Char) (params : List Str) :
    List Str :=
  if params.length > 0 then
    fuzzedURLs ++ [base ++ [sep] ++ (Join params (['='] ++ FUZZ ++ ['&']) ++ (['='] ++ FUZZ))]
  else
    fuzzedURLs

/-- Lines 73-81: `for i := range parts`, and for `i > 2` append the `/`-join of
`parts[:i]`, `"FUZZ"`, `parts[i+1:]`. -/
def appendPaths (fuzzedURLs : List Str) (parts : List Str) : List Str :=
  (List.range parts.length).foldl
    (fun acc i =>
      if i > 2 then
        acc ++ [Join (parts.take i ++ [FUZZ] ++ parts.drop (i + 1)) ['/']]
      else
        acc)
    fuzzedURLs

/-- The permutation engine, `generateFuzzedURLsForInput` (lines 44-84). -/
def generateFuzzedURLsForInput (input : JSluiceOutput) : List Str :=
  let fuzzedURLs : List Str := []
  let baseURL := baseURL input
  let fuzzedURLs := fuzzedURLs ++ [baseURL]
  let fuzzedURLs := appendEach fuzzedURLs baseURL '?' input.QueryParams
  let fuzzedURLs := appendAll fuzzedURLs baseURL '?' input.QueryParams
  let fuzzedURLs :=
    if input.Method = "POST".toList ∨ input.Method = "PUT".toList then
      appendAll (appendEach fuzzedURLs baseURL '|' input.BodyParams) baseURL '|'
        input.BodyParams
    else
      fuzzedURLs
  appendPaths fuzzedURLs (Split baseURL ['/'])

/-! ## `worker` and `GenerateFuzzedURLs`

The driver starts `concurrent` goroutines that all send on one unbuffered channel; the
calling goroutine receives from it and appends what it receives, until the channel is
closed, which happens once every worker has returned.  An unbuffered channel hands one
value from one sender to the receiver at a time, so an execution is the order in which the
workers get their turn: a schedule, the list of the indices of the workers whose sends are
received, in the order of receipt.  The state between two receipts is what each worker has
still to send and what was received so far. -/

/-- The function `worker` (lines 34-42): the values one worker sends on `results`, in the
order it sends them. -/
def worker (inputs : List JSluiceOutput) : List Str :=
  inputs.foldl
    (fun sent input =>
      (generateFuzzedURLsForInput input).foldl (fun sent url => sent ++ [url]) sent)
    []

/-- The state of `GenerateFuzzedURLs` between two receipts: for every started worker the
values it has still to send, and the values received so far, each with the index of the
worker it came from (the index is bookkeeping of the model; the program keeps the values
only). -/
structure Driver where
  workers : List (List Str)
  received : List (Nat × Str)

/-- Lines 13-19: `for i := 0; i < concurrent; i++` starts one worker per iteration, each over
the whole of `inputs`; nothing is received yet. -/
def start (inputs : List JSluiceOutput) (concurrent : Int) : Driver :=
  { workers := (List.range concurrent.toNat).map (fun _ => worker inputs), received := [] }

/-- One handoff on the channel: worker `i` sends its next value (line 39) and the loop of
lines 27-29 appends it.  There is none when no worker `i` was started or it has sent
everything. -/
def receive (d : Driver) (i : Nat) : Option Driver :=
  match d.workers[i]? with
  | some (url :: rest) =>
    some { workers := d.workers.set i rest, received := d.received ++ [(i, url)] }
  | _ => none

/-- Every worker has sent everything and returned: `wg.Wait()` returns and the channel is
closed (lines 21-24). -/
def finished (d : Driver) : Bool :=
  d.workers.all (fun pending => pending.isEmpty)

/-- The state after the handoffs of a schedule, when each of them can take place. -/
def runSchedule (d : Driver) : List Nat → Option Driver
  | [] => some d
  | i :: schedule =>
    match receive d i with
    | some d' => runSchedule d' schedule
    | none => none

/-- The function `GenerateFuzzedURLs` (lines 12-32) under a schedule: the values in the order
received and the error, which is always `nil` (`none`).  The function returns only when the
channel is closed, so a schedule that cannot take place or that leaves a worker unfinished
is no execution of it (`none`). -/
def GenerateFuzzedURLs (inputs : List JSluiceOutput) (concurrent : Int) (schedule : List Nat) :
    Option (List Str × Option Str) :=
  match runSchedule (start inputs concurrent) schedule with
  | some d => if finished d then some (d.received.map Prod.snd, none) else none
  | none => none

/-- The values received from worker `i` so far, in the order of receipt. -/
def receivedFrom (d : Driver) (i : Nat) : List Str :=
  (d.received.filter (fun p => p.1 == i)).map Prod.snd

/-! ## Example records -/

/-- The record `url = "http://x.com/a/b/c"`, no parameters, empty method. -/
def endpointPath : JSluiceOutput :=
  { URL := "http://x.com/a/b/c".toList, QueryParams := [], BodyParams := [], Method := [],
    Headers := [], Type_ := [] }

/-- The record `url = "http://x.com/a"` with the query parameters `id` and `name`. -/
def endpointQuery : JSluiceOutput :=
  { URL := "http://x.com/a".toList, QueryParams := ["id".toList, "name".toList],
    BodyParams := [], Method := [], Headers := [], Type_ := [] }

/-- The record `url = "http://site.test/api/v1/user?id=5"`, method `GET`, query parameter
`id`, no body parameters. -/
def endpointSite : JSluiceOutput :=
  { URL := "http://site.test/api/v1/user?id=5".toList, QueryParams := ["id".toList],
    BodyParams := [], Method := "GET".toList, Headers := [], Type_ := [] }

/-- The record `endpointSite` with a header and a type set. -/
def endpointSiteTagged : JSluiceOutput :=
  { endpointSite with
    Headers := [("Accept".toList, "text/html".toList)], Type_ := "fetch".toList }

/-- A schedule of two workers over one record with four candidates. -/
def scheduleTwo : List Nat := [0, 1, 1, 0, 0, 1, 1, 0]

/-- What is received from two workers over `endpointPath` under `scheduleTwo`. -/
def receivedTwo : List Str :=
  ["http://x.com/a/b/c".toList, "http://x.com/a/b/c".toList,
    "http://x.com/FUZZ/b/c".toList, "http://x.com/FUZZ/b/c".toList,
    "http://x.com/a/FUZZ/c".toList, "http://x.com/a/FUZZ/c".toList,
    "http://x.com/a/b/FUZZ".toList, "http://x.com/a/b/FUZZ".toList]

/-! ## Auxiliary facts about the library functions -/

theorem contains_single (c : Char) (s : Str) : Contains s [c] = true ↔ c ∈ s := by
  induction s with
  | nil => simp [Contains, HasPrefix]
  | cons d ds ih =>
    simp only [Contains, Bool.or_eq_true, ih, HasPrefix, Bool.and_true, beq_iff_eq,
      List.mem_cons]
    constructor
    · rintro (h | h)
      · exact Or.inl h.symm
      · exact Or.inr h
    · rintro (h | h)
      · exact Or.inl h.symm
      · exact Or.inr h

theorem splitAux_single_cons (c d : Char) (ds : Str) :
    splitAux [c] 0 (d :: ds) =
      if d = c then ([], (splitAux [c] 0 ds).1 :: (splitAux [c] 0 ds).2)
      else (d :: (splitAux [c] 0 ds).1, (splitAux [c] 0 ds).2) := by
  simp [splitAux, HasPrefix]

theorem splitAux_single_fst (c : Char) (s : Str) :
    (splitAux [c] 0 s).1 = s.takeWhile (fun x => x != c) := by
  induction s with
  | nil => simp [splitAux]
  | cons d ds ih =>
    rw [splitAux_single_cons]
    by_cases h : d = c
    · simp [h]
    · simp [h, ih, List.takeWhile_cons]

/-! ## The loops of `generateFuzzedURLsForInput` in closed form -/

theorem appendEach_eq (fuzzedURLs : List Str) (base : Str) (sep : Char) (params : List Str) :
    appendEach fuzzedURLs base sep params =
      fuzzedURLs ++ params.map (fun param => base ++ [sep] ++ param ++ ['='] ++ FUZZ) := by
  unfold appendEach
  induction params generalizing fuzzedURLs with
  | nil => simp
  | cons p ps ih =>
    rw [List.foldl_cons, ih, List.map_cons, List.append_assoc]
    rfl

theorem appendAll_eq (fuzzedURLs : List Str) (base : Str) (sep : Char) (params : List Str) :
    appendAll fuzzedURLs base sep params =
      fuzzedURLs ++
        (if params ≠ [] then
          [base ++ [sep] ++ (Join params (['='] ++ FUZZ ++ ['&']) ++ (['='] ++ FUZZ))]
        else []) := by
  unfold appendAll
  cases params <;> simp

theorem foldl_guarded_append {α β : Type} (p : α → Bool) (f : α → β) (l : List α)
    (acc : List β) :
    l.foldl (fun acc i => if p i = true then acc ++ [f i] else acc) acc =
      acc ++ (l.filter p).map f := by
  induction l generalizing acc with
  | nil => simp
  | cons a l ih =>
    by_cases h : p a = true
    · simp [ih, h]
    · simp [ih, h]

theorem filter_gt_two_range (n : Nat) :
    (List.range n).filter (fun i => decide (i > 2)) = List.range' 3 (n - 3) := by
  induction n with
  | zero => simp
  | succ n ih =>
    rw [List.range_succ, List.filter_append, ih]
    by_cases h : 2 < n
    · have e : n + 1 - 3 = (n - 3) + 1 := by omega
      have e3 : 3 + (n - 3) = n := by omega
      simp [h, e, List.range'_concat, e3]
    · have e : n + 1 - 3 = 0 := by omega
      have e0 : n - 3 = 0 := by omega
      simp [h, e, e0]

theorem take_marker_drop (parts : List Str) (i : Nat) (h : i < parts.length) :
    parts.take i ++ [FUZZ] ++ parts.drop (i + 1) = parts.set i FUZZ := by
  induction parts generalizing i with
  | nil => simp at h
  | cons a rest ih =>
    cases i with
    | zero => simp
    | succ i =>
      have := ih i (by simpa using h)
      simpa using this

theorem appendPaths_eq (fuzzedURLs : List Str) (parts : List Str) :
    appendPaths fuzzedURLs parts =
      fuzzedURLs ++
        (List.range' 3 (parts.length - 3)).map (fun i => Join (parts.set i FUZZ) ['/']) := by
  unfold appendPaths
  have h := foldl_guarded_append (fun i => decide (i > 2))
    (fun i => Join (parts.take i ++ [FUZZ] ++ parts.drop (i + 1)) ['/'])
    (List.range parts.length) fuzzedURLs
  simp only [decide_eq_true_eq] at h
  rw [h, filter_gt_two_range]
  congr 1
  apply List.map_congr_left
  intro i hi
  rw [List.mem_range'_1] at hi
  rw [take_marker_drop parts i (by omega)]

/-! ## The base URL -/

theorem baseURL_eq_takeWhile (input : JSluiceOutput) :
    baseURL input = input.URL.takeWhile (fun x => x != '?') := by
  unfold baseURL
  by_cases h : Contains input.URL ['?'] = true
  · rw [if_pos h]
    show (splitAux ['?'] 0 input.URL).1 = _
    exact splitAux_single_fst _ _
  · rw [if_neg h]
    rw [contains_single] at h
    symm
    rw [List.takeWhile_eq_self_iff]
    intro x hx
    simp only [bne_iff_ne, ne_eq]
    rintro rfl
    exact h hx

theorem takeWhile_ne_append (c : Char) (s : Str) (h : c ∈ s) :
    ∃ rest, s = s.takeWhile (fun x => x != c) ++ c :: rest := by
  induction s with
  | nil => simp at h
  | cons d ds ih =>
    by_cases e : d = c
    · exact ⟨ds, by simp [e]⟩
    · have hc : c ∈ ds := by
        rcases List.mem_cons.1 h with h | h
        · exact absurd h.symm e
        · exact h
      obtain ⟨rest, hr⟩ := ih hc
      refine ⟨rest, ?_⟩
      have : (d != c) = true := by simpa using e
      rw [List.takeWhile_cons, this]
      simp only [if_true, List.cons_append]
      rw [← hr]

theorem not_mem_takeWhile_ne (c : Char) (s : Str) : c ∉ s.takeWhile (fun x => x != c) := by
  intro h
  have := List.mem_takeWhile_imp h
  simp at this

theorem prefix_le_takeWhile_ne (c : Char) (s p : Str) (hp : p <+: s) (hc : c ∉ p) :
    p.length ≤ (s.takeWhile (fun x => x != c)).length := by
  induction s generalizing p with
  | nil =>
    have : p = [] := List.prefix_nil.1 hp
    simp [this]
  | cons d ds ih =>
    cases p with
    | nil => simp
    | cons e es =>
      rw [List.cons_prefix_cons] at hp
      obtain ⟨rfl, hes⟩ := hp
      have he : e ≠ c := fun h => hc (by simp [h])
      have hc2 : c ∉ es := fun h => hc (List.mem_cons_of_mem _ h)
      have : (e != c) = true := by simpa using he
      rw [List.takeWhile_cons, this]
      simpa using ih es hes hc2

/-! ## The permutation engine in closed form -/

theorem generate_closed_form (input : JSluiceOutput) :
    generateFuzzedURLsForInput input =
      [baseURL input]
        ++ input.QueryParams.map (fun name => baseURL input ++ ['?'] ++ name ++ ['='] ++ FUZZ)
        ++ (if input.QueryParams ≠ [] then
              [baseURL input ++ ['?'] ++
                (Join input.QueryParams (['='] ++ FUZZ ++ ['&']) ++ (['='] ++ FUZZ))]
            else [])
        ++ (if input.Method = "POST".toList ∨ input.Method = "PUT".toList then
              input.BodyParams.map (fun name => baseURL input ++ ['|'] ++ name ++ ['='] ++ FUZZ)
                ++ (if input.BodyParams ≠ [] then
                      [baseURL input ++ ['|'] ++
                        (Join input.BodyParams (['='] ++ FUZZ ++ ['&']) ++ (['='] ++ FUZZ))]
                    else [])
            else [])
        ++ (List.range' 3 ((Split (baseURL input) ['/']).length - 3)).map
              (fun i => Join ((Split (baseURL input) ['/']).set i FUZZ) ['/']) := by
  unfold generateFuzzedURLsForInput
  simp only [appendPaths_eq, appendAll_eq, appendEach_eq, List.nil_append]
  by_cases hm : input.Method = "POST".toList ∨ input.Method = "PUT".toList
  · simp only [if_pos hm, List.append_assoc]
  · simp only [if_neg hm, List.append_nil]

/-! ## Splitting and joining on one character -/

theorem splitAux_single_of_not_mem (c : Char) (s : Str) (h : c ∉ s) :
    splitAux [c] 0 s = (s, []) := by
  induction s with
  | nil => simp [splitAux]
  | cons d ds ih =>
    have hd : d ≠ c := fun e => h (by simp [e])
    have hds : c ∉ ds := fun e => h (List.mem_cons_of_mem _ e)
    rw [splitAux_single_cons, if_neg hd, ih hds]

theorem splitAux_single_append (c : Char) (a t : Str) (h : c ∉ a) :
    splitAux [c] 0 (a ++ c :: t) = (a, (splitAux [c] 0 t).1 :: (splitAux [c] 0 t).2) := by
  induction a with
  | nil => simp [splitAux_single_cons]
  | cons d ds ih =>
    have hd : d ≠ c := fun e => h (by simp [e])
    have hds : c ∉ ds := fun e => h (List.mem_cons_of_mem _ e)
    rw [List.cons_append, splitAux_single_cons, if_neg hd, ih hds]

theorem splitAux_single_join (c : Char) (a : Str) (rest : List Str)
    (h : ∀ p ∈ a :: rest, c ∉ p) : splitAux [c] 0 (Join (a :: rest) [c]) = (a, rest) := by
  induction rest generalizing a with
  | nil => exact splitAux_single_of_not_mem c a (h a (by simp))
  | cons b r ih =>
    have hb : ∀ p ∈ b :: r, c ∉ p := fun p hp => h p (List.mem_cons_of_mem _ hp)
    have e : Join (a :: b :: r) [c] = a ++ c :: Join (b :: r) [c] := by simp [Join]
    rw [e, splitAux_single_append c a _ (h a (by simp)), ih b hb]

theorem split_join_single (c : Char) (parts : List Str) (hne : parts ≠ [])
    (h : ∀ p ∈ parts, c ∉ p) : Split (Join parts [c]) [c] = parts := by
  cases parts with
  | nil => exact absurd rfl hne
  | cons a rest =>
    show (splitAux [c] 0 (Join (a :: rest) [c])).1 :: (splitAux [c] 0 (Join (a :: rest) [c])).2 = _
    rw [splitAux_single_join c a rest h]

theorem split_single_pieces (c : Char) (s : Str) :
    ∀ p ∈ Split s [c], c ∉ p ∧ ∀ x ∈ p, x ∈ s := by
  show ∀ p ∈ (splitAux [c] 0 s).1 :: (splitAux [c] 0 s).2, c ∉ p ∧ ∀ x ∈ p, x ∈ s
  induction s with
  | nil => simp [splitAux]
  | cons d ds ih =>
    have ih1 := ih _ (List.mem_cons_self _ _)
    have ih2 : ∀ p ∈ (splitAux [c] 0 ds).2, c ∉ p ∧ ∀ x ∈ p, x ∈ ds :=
      fun p hp => ih p (List.mem_cons_of_mem _ hp)
    rw [splitAux_single_cons]
    by_cases hd : d = c
    · rw [if_pos hd]
      intro p hp
      rcases List.mem_cons.1 hp with rfl | hp
      · simp
      · obtain ⟨h1, h2⟩ := ih p hp
        exact ⟨h1, fun x hx => List.mem_cons_of_mem _ (h2 x hx)⟩
    · rw [if_neg hd]
      intro p hp
      rcases List.mem_cons.1 hp with rfl | hp
      · refine ⟨?_, ?_⟩
        · intro hc
          rcases List.mem_cons.1 hc with e | e
          · exact hd e.symm
          · exact ih1.1 e
        · intro x hx
          rcases List.mem_cons.1 hx with e | e
          · simp [e]
          · exact List.mem_cons_of_mem _ (ih1.2 x e)
      · obtain ⟨h1, h2⟩ := ih2 p hp
        exact ⟨h1, fun x hx => List.mem_cons_of_mem _ (h2 x hx)⟩

theorem mem_join (parts : List Str) (sep : Str) (x : Char) (h : x ∈ Join parts sep) :
    x ∈ sep ∨ ∃ p ∈ parts, x ∈ p := by
  induction parts with
  | nil => simp [Join] at h
  | cons a rest ih =>
    cases rest with
    | nil => exact Or.inr ⟨a, by simp, by simpa [Join] using h⟩
    | cons b r =>
      have e : Join (a :: b :: r) sep = a ++ sep ++ Join (b :: r) sep := by simp [Join]
      rw [e, List.mem_append, List.mem_append] at h
      rcases h with (h | h) | h
      · exact Or.inr ⟨a, by simp, h⟩
      · exact Or.inl h
      · rcases ih h with h | ⟨p, hp, hx⟩
        · exact Or.inl h
        · exact Or.inr ⟨p, List.mem_cons_of_mem _ hp, hx⟩

theorem mem_of_mem_set_marker (parts : List Str) (i : Nat) (p : Str)
    (h : p ∈ parts.set i FUZZ) : p = FUZZ ∨ p ∈ parts := by
  induction parts generalizing i with
  | nil => simp at h
  | cons a rest ih =>
    cases i with
    | zero =>
      rcases List.mem_cons.1 h with h | h
      · exact Or.inl h
      · exact Or.inr (List.mem_cons_of_mem _ h)
    | succ i =>
      rcases List.mem_cons.1 h with h | h
      · exact Or.inr (by simp [h])
      · rcases ih i h with h | h
        · exact Or.inl h
        · exact Or.inr (List.mem_cons_of_mem _ h)

/-- Splitting a path candidate on `/` gives back the segments it was joined from. -/
theorem split_path_candidate (base : Str) (i : Nat) (hi : i < (Split base ['/']).length) :
    Split (Join ((Split base ['/']).set i FUZZ) ['/']) ['/'] = (Split base ['/']).set i FUZZ := by
  apply split_join_single
  · intro h
    have e := congrArg List.length h
    rw [List.length_set, List.length_nil] at e
    omega
  · intro p hp
    rcases mem_of_mem_set_marker _ _ _ hp with rfl | hp
    · decide
    · exact (split_single_pieces '/' base p hp).1


theorem ite_list_length {α : Type} (c : Prop) [Decidable c] (a : List α) :
    (if c then a else []).length = if c then a.length else 0 := by
  split <;> rfl

theorem join_with_suffix (params : List Str) (t sep : Str) (h : params ≠ []) :
    Join params (t ++ sep) ++ t = Join (params.map (fun name => name ++ t)) sep := by
  induction params with
  | nil => exact absurd rfl h
  | cons a rest ih =>
    cases rest with
    | nil => simp [Join]
    | cons b r =>
      have e := ih (by simp)
      simp only [Join, List.map_cons, List.append_assoc] at e ⊢
      rw [e]

theorem cons_shape (b c : Str) (m z p : List Str) :
    [b] ++ m ++ [c] ++ z ++ p = b :: (m ++ c :: (z ++ p)) := by
  simp

theorem generate_query_shape (input : JSluiceOutput) (h : input.QueryParams ≠ []) :
    ∃ rest, generateFuzzedURLsForInput input =
      baseURL input ::
        (input.QueryParams.map (fun name => baseURL input ++ ['?'] ++ name ++ ['='] ++ FUZZ)
          ++ (baseURL input ++ ['?'] ++
                (Join input.QueryParams (['='] ++ FUZZ ++ ['&']) ++ (['='] ++ FUZZ))) :: rest) := by
  rw [generate_closed_form, if_pos h, cons_shape]
  exact ⟨_, rfl⟩

theorem baseURL_subset (input : JSluiceOutput) (x : Char) (h : x ∈ baseURL input) :
    x ∈ input.URL := by
  rw [baseURL_eq_takeWhile] at h
  exact (List.takeWhile_prefix _).subset h

/-! ## The permutation engine: the claims -/

theorem marker_literals :
    "?".toList = ['?'] ∧ "|".toList = ['|'] ∧ "/".toList = ['/'] ∧ "FUZZ".toList = FUZZ ∧
      "=FUZZ".toList = ['='] ++ FUZZ ∧ "=FUZZ&".toList = ['='] ++ FUZZ ++ ['&'] ∧
      "&".toList = ['&'] :=
  ⟨rfl, rfl, rfl, rfl, rfl, rfl, rfl⟩

/-- C1: the output of `generateFuzzedURLsForInput` is exactly, in this order: the base URL;
one `base?name=FUZZ` per query parameter; when there are query parameters, the combined
`base?` + (names joined with `=FUZZ&`) + `=FUZZ`; when the method is `POST` or `PUT`, one
`base|name=FUZZ` per body parameter and, when there are body parameters, the combined one;
then for `i = 3, ..., k-1` the `/`-join of the `k` segments of the base URL with segment `i`
replaced by `FUZZ`.  The base URL is the URL cut before its first `?`. -/
theorem generateFuzzedURLsForInput_sequence (input : JSluiceOutput) :
    baseURL input = input.URL.takeWhile (fun c => c != '?') ∧
    generateFuzzedURLsForInput input =
      [baseURL input]
        ++ input.QueryParams.map
            (fun name => baseURL input ++ "?".toList ++ name ++ "=FUZZ".toList)
        ++ (if input.QueryParams ≠ [] then
              [baseURL input ++ "?".toList ++ Join input.QueryParams "=FUZZ&".toList
                ++ "=FUZZ".toList]
            else [])
        ++ (if input.Method = "POST".toList ∨ input.Method = "PUT".toList then
              input.BodyParams.map
                  (fun name => baseURL input ++ "|".toList ++ name ++ "=FUZZ".toList)
                ++ (if input.BodyParams ≠ [] then
                      [baseURL input ++ "|".toList ++ Join input.BodyParams "=FUZZ&".toList
                        ++ "=FUZZ".toList]
                    else [])
            else [])
        ++ (List.range' 3 ((Split (baseURL input) "/".toList).length - 3)).map
            (fun i => Join ((Split (baseURL input) "/".toList).set i "FUZZ".toList)
              "/".toList) := by
  refine ⟨baseURL_eq_takeWhile input, ?_⟩
  obtain ⟨h1, h2, h3, h4, h5, h6, -⟩ := marker_literals
  rw [generate_closed_form, h1, h2, h3, h4, h5, h6]
  simp only [List.append_assoc]

/-- C2: the output is non-empty and starts with the base URL; the base URL is the URL itself
when that has no `?`, and otherwise the part before the first `?`: the URL is the base URL,
a `?` and a rest, the base URL has no `?`, and no longer prefix of the URL is free of `?`.
For `"http://x.com/a?x=1"` the base URL is `"http://x.com/a"`. -/
theorem baseURL_first (input : JSluiceOutput) :
    (∃ rest, generateFuzzedURLsForInput input = baseURL input :: rest) ∧
    generateFuzzedURLsForInput input ≠ [] ∧
    ('?' ∉ input.URL → baseURL input = input.URL) ∧
    ('?' ∈ input.URL → ∃ rest, input.URL = baseURL input ++ "?".toList ++ rest) ∧
    baseURL input <+: input.URL ∧
    '?' ∉ baseURL input ∧
    (∀ p : Str, p <+: input.URL → '?' ∉ p → p.length ≤ (baseURL input).length) ∧
    (input.URL = "http://x.com/a?x=1".toList → baseURL input = "http://x.com/a".toList) := by
  have hb := baseURL_eq_takeWhile input
  refine ⟨?_, ?_, ?_, ?_, ?_, ?_, ?_, ?_⟩
  · rw [generate_closed_form]
    exact ⟨_, rfl⟩
  · rw [generate_closed_form]
    simp
  · intro h
    unfold baseURL
    rw [if_neg]
    rw [contains_single]
    exact h
  · intro h
    obtain ⟨rest, hr⟩ := takeWhile_ne_append '?' input.URL h
    refine ⟨rest, ?_⟩
    rw [hb]
    simpa using hr
  · rw [hb]
    exact List.takeWhile_prefix _
  · rw [hb]
    exact not_mem_takeWhile_ne '?' input.URL
  · intro p hp hq
    rw [hb]
    exact prefix_le_takeWhile_ne '?' input.URL p hp hq
  · intro h
    rw [hb, h]
    decide

/-- C3: with `k` the number of `/`-segments of the base URL, the output ends with exactly
`k - 3` path candidates (none when `k ≤ 3`), which follow the `1 + ...` candidates of the
other steps, one per index `3 ≤ i < k` in ascending order; the candidate of index `i`, split
on `/`, has again `k` segments, its segment `i` is `FUZZ` and every other segment is that of
the base URL, so segments 0, 1 and 2 are never replaced.  For `"http://x.com/a/b/c"` without
parameters and method the output is the base URL and the three candidates. -/
theorem path_candidates (input : JSluiceOutput) :
    (∃ others paths : List Str,
      generateFuzzedURLsForInput input = others ++ paths ∧
      others.length =
        1 + input.QueryParams.length + (if input.QueryParams ≠ [] then 1 else 0)
          + (if input.Method = "POST".toList ∨ input.Method = "PUT".toList then
              input.BodyParams.length + (if input.BodyParams ≠ [] then 1 else 0)
            else 0) ∧
      paths.length = (Split (baseURL input) "/".toList).length - 3 ∧
      (∀ i, 3 ≤ i → i < (Split (baseURL input) "/".toList).length →
        ∃ candidate, paths[i - 3]? = some candidate ∧
          (Split candidate "/".toList).length = (Split (baseURL input) "/".toList).length ∧
          (Split candidate "/".toList)[i]? = some "FUZZ".toList ∧
          ∀ j, j ≠ i → (Split candidate "/".toList)[j]? = (Split (baseURL input) "/".toList)[j]?) ∧
      (∀ candidate ∈ paths, ∀ j, j < 3 →
        (Split candidate "/".toList)[j]? = (Split (baseURL input) "/".toList)[j]?)) ∧
    generateFuzzedURLsForInput endpointPath =
      ["http://x.com/a/b/c".toList, "http://x.com/FUZZ/b/c".toList,
        "http://x.com/a/FUZZ/c".toList, "http://x.com/a/b/FUZZ".toList] := by
  refine ⟨?_, by decide⟩
  show ∃ others paths : List Str, _ ∧ _ ∧ paths.length = (Split (baseURL input) ['/']).length - 3 ∧
      (∀ i, 3 ≤ i → i < (Split (baseURL input) ['/']).length →
        ∃ candidate, paths[i - 3]? = some candidate ∧
          (Split candidate ['/']).length = (Split (baseURL input) ['/']).length ∧
          (Split candidate ['/'])[i]? = some FUZZ ∧
          ∀ j, j ≠ i → (Split candidate ['/'])[j]? = (Split (baseURL input) ['/'])[j]?) ∧
      (∀ candidate ∈ paths, ∀ j, j < 3 →
        (Split candidate ['/'])[j]? = (Split (baseURL input) ['/'])[j]?)
  have key : ∀ i, 3 ≤ i → i < (Split (baseURL input) ['/']).length →
      (Split (Join ((Split (baseURL input) ['/']).set i FUZZ) ['/']) ['/']).length
          = (Split (baseURL input) ['/']).length ∧
        (Split (Join ((Split (baseURL input) ['/']).set i FUZZ) ['/']) ['/'])[i]? = some FUZZ ∧
        ∀ j, j ≠ i → (Split (Join ((Split (baseURL input) ['/']).set i FUZZ) ['/']) ['/'])[j]?
          = (Split (baseURL input) ['/'])[j]? := by
    intro i _ hi
    rw [split_path_candidate _ i hi]
    refine ⟨List.length_set _ _ _, ?_, ?_⟩
    · exact List.getElem?_set_self hi
    · intro j hj
      rw [List.getElem?_set_ne (Ne.symm hj)]
  refine ⟨_, _, generate_closed_form input, ?_, ?_, ?_, ?_⟩
  · simp only [List.length_append, List.length_map, List.length_cons, List.length_nil,
      ite_list_length, Nat.zero_add]
  · simp
  · intro i h3 hi
    refine ⟨Join ((Split (baseURL input) ['/']).set i FUZZ) ['/'], ?_, key i h3 hi⟩
    rw [List.getElem?_map, List.getElem?_range' _ _ (by omega)]
    have e : 3 + 1 * (i - 3) = i := by omega
    rw [e]
    rfl
  · intro candidate hc j hj
    rw [List.mem_map] at hc
    obtain ⟨i, hi, rfl⟩ := hc
    rw [List.mem_range'_1] at hi
    exact (key i hi.1 (by omega)).2.2 j (by omega)

/-- C4: with query parameters `p1, ..., pN` (`N ≥ 1`), the output holds `base?pi=FUZZ` at
position `1 + i` for every `i`, in the order of the parameters, and right after them, at
position `1 + N`, the combined `base?p1=FUZZ&...&pN=FUZZ`; so all of them are in the
output. -/
theorem query_candidates (input : JSluiceOutput) (h : input.QueryParams ≠ []) :
    (∀ (i : Nat) (hi : i < input.QueryParams.length),
      (generateFuzzedURLsForInput input)[1 + i]? =
        some (baseURL input ++ "?".toList ++ input.QueryParams[i] ++ "=FUZZ".toList)) ∧
    (generateFuzzedURLsForInput input)[1 + input.QueryParams.length]? =
      some (baseURL input ++ "?".toList ++
        Join (input.QueryParams.map (fun name => name ++ "=FUZZ".toList)) "&".toList) ∧
    (∀ name ∈ input.QueryParams,
      baseURL input ++ "?".toList ++ name ++ "=FUZZ".toList ∈
        generateFuzzedURLsForInput input) ∧
    baseURL input ++ "?".toList ++
        Join (input.QueryParams.map (fun name => name ++ "=FUZZ".toList)) "&".toList ∈
      generateFuzzedURLsForInput input := by
  obtain ⟨h1, -, -, -, h5, -, h7⟩ := marker_literals
  obtain ⟨rest, hrest⟩ := generate_query_shape input h
  have hjoin := join_with_suffix input.QueryParams (['='] ++ FUZZ) ['&'] h
  rw [h1, h5, h7, hrest, ← hjoin]
  have hidx : ∀ (i : Nat) (hi : i < input.QueryParams.length),
      (baseURL input ::
        (input.QueryParams.map (fun name => baseURL input ++ ['?'] ++ name ++ ['='] ++ FUZZ)
          ++ (baseURL input ++ ['?'] ++
                (Join input.QueryParams (['='] ++ FUZZ ++ ['&']) ++ (['='] ++ FUZZ))) :: rest))[1 + i]?
        = some (baseURL input ++ ['?'] ++ input.QueryParams[i] ++ (['='] ++ FUZZ)) := by
    intro i hi
    rw [Nat.add_comm, List.getElem?_cons_succ,
      List.getElem?_append_left (by simpa using hi), List.getElem?_map,
      List.getElem?_eq_getElem hi]
    simp
  have hcomb :
      (baseURL input ::
        (input.QueryParams.map (fun name => baseURL input ++ ['?'] ++ name ++ ['='] ++ FUZZ)
          ++ (baseURL input ++ ['?'] ++
                (Join input.QueryParams (['='] ++ FUZZ ++ ['&']) ++ (['='] ++ FUZZ))) :: rest))[1 + input.QueryParams.length]?
        = some (baseURL input ++ ['?'] ++
            (Join input.QueryParams (['='] ++ FUZZ ++ ['&']) ++ (['='] ++ FUZZ))) := by
    rw [Nat.add_comm, List.getElem?_cons_succ,
      List.getElem?_append_right (by simp)]
    simp
  refine ⟨hidx, hcomb, ?_, ?_⟩
  · intro name hname
    obtain ⟨i, hi, rfl⟩ := List.getElem_of_mem hname
    exact List.getElem?_mem (hidx i hi)
  · exact List.getElem?_mem hcomb

/-- C4, at `url = "http://x.com/a"` with the query parameters `id` and `name`. -/
theorem query_candidates_example :
    endpointQuery.QueryParams ≠ [] ∧
    "http://x.com/a?id=FUZZ".toList ∈ generateFuzzedURLsForInput endpointQuery ∧
    "http://x.com/a?name=FUZZ".toList ∈ generateFuzzedURLsForInput endpointQuery ∧
    "http://x.com/a?id=FUZZ&name=FUZZ".toList ∈ generateFuzzedURLsForInput endpointQuery :=
  ⟨by decide,
    (query_candidates endpointQuery (by decide)).2.2.1 "id".toList (by decide),
    (query_candidates endpointQuery (by decide)).2.2.1 "name".toList (by decide),
    (query_candidates endpointQuery (by decide)).2.2.2⟩

/-- C5: the body-parameter candidates depend on the method being exactly `POST` or `PUT`.
With such a method the output has `base|name=FUZZ` for every body parameter.  With any
other method (`GET`, the empty string, `post`, ...) the output is that of the same record
without body parameters and, when neither the URL nor a query parameter name has a `|`, no
element of the output has one. -/
theorem body_candidates_gated (input : JSluiceOutput) :
    ((input.Method = "POST".toList ∨ input.Method = "PUT".toList) →
      ∀ name ∈ input.BodyParams,
        baseURL input ++ "|".toList ++ name ++ "=FUZZ".toList ∈
          generateFuzzedURLsForInput input) ∧
    (¬ (input.Method = "POST".toList ∨ input.Method = "PUT".toList) →
      generateFuzzedURLsForInput input =
          generateFuzzedURLsForInput { input with BodyParams := [] } ∧
        ('|' ∉ input.URL → (∀ name ∈ input.QueryParams, '|' ∉ name) →
          ∀ url ∈ generateFuzzedURLsForInput input, '|' ∉ url)) ∧
    ((input.Method = "GET".toList ∨ input.Method = "".toList ∨ input.Method = "post".toList ∨
        input.Method = "put".toList ∨ input.Method = "Post".toList) →
      generateFuzzedURLsForInput input =
        generateFuzzedURLsForInput { input with BodyParams := [] }) ∧
    (input.URL = "http://x.com/a".toList → input.Method = "POST".toList →
      input.BodyParams = ["token".toList] →
      "http://x.com/a|token=FUZZ".toList ∈ generateFuzzedURLsForInput input) := by
  obtain ⟨h1, h2, h3, h4, h5, h6, h7⟩ := marker_literals
  have hpos : (input.Method = "POST".toList ∨ input.Method = "PUT".toList) →
      ∀ name ∈ input.BodyParams,
        baseURL input ++ ['|'] ++ name ++ (['='] ++ FUZZ) ∈
          generateFuzzedURLsForInput input := by
    intro hm name hname
    rw [generate_closed_form, if_pos hm]
    simp only [List.mem_append, List.mem_map]
    exact Or.inl (Or.inr (Or.inl ⟨name, hname, by simp only [List.append_assoc]⟩))
  have hneg : ¬ (input.Method = "POST".toList ∨ input.Method = "PUT".toList) →
      generateFuzzedURLsForInput input =
        generateFuzzedURLsForInput { input with BodyParams := [] } := by
    intro hm
    have hm2 : ¬ (({ input with BodyParams := [] } : JSluiceOutput).Method = "POST".toList ∨
        ({ input with BodyParams := [] } : JSluiceOutput).Method = "PUT".toList) := hm
    rw [generate_closed_form input, generate_closed_form { input with BodyParams := [] },
      if_neg hm, if_neg hm2]
    rfl
  refine ⟨?_, ?_, ?_, ?_⟩
  · rw [h2, h5]
    exact hpos
  · intro hm
    refine ⟨hneg hm, ?_⟩
    intro hurl hq url hmem hbar
    have hbase : '|' ∉ baseURL input := fun hx => hurl (baseURL_subset input _ hx)
    have hmark : '|' ∉ FUZZ := by decide
    rw [generate_closed_form, if_neg hm] at hmem
    simp only [List.mem_append, List.mem_map, List.mem_singleton, List.not_mem_nil,
      or_false] at hmem
    rcases hmem with ((rfl | ⟨name, hname, rfl⟩) | hcomb) | ⟨i, -, rfl⟩
    · exact hbase hbar
    · simp only [List.mem_append, List.mem_singleton] at hbar
      rcases hbar with (((hb | hb) | hb) | hb) | hb
      · exact hbase hb
      · exact absurd hb (by decide)
      · exact hq name hname hb
      · exact absurd hb (by decide)
      · exact hmark hb
    · by_cases hne : input.QueryParams = []
      · rw [if_neg (not_not.2 hne)] at hcomb
        exact absurd hcomb (List.not_mem_nil _)
      · rw [if_pos hne, List.mem_singleton] at hcomb
        subst hcomb
        simp only [List.mem_append, List.mem_singleton] at hbar
        rcases hbar with (hb | hb) | hb | hb | hb
        · exact hbase hb
        · exact absurd hb (by decide)
        · rcases mem_join _ _ _ hb with hs | ⟨name, hname, hx⟩
          · exact absurd hs (by decide)
          · exact hq name hname hx
        · exact absurd hb (by decide)
        · exact hmark hb
    · rcases mem_join _ _ _ hbar with hs | ⟨part, hpart, hx⟩
      · exact absurd hs (by decide)
      · rcases mem_of_mem_set_marker _ _ _ hpart with rfl | hp
        · exact hmark hx
        · exact hbase ((split_single_pieces '/' (baseURL input) part hp).2 _ hx)
  · intro hm
    apply hneg
    rintro (hp | hp) <;> rw [hp] at hm <;> revert hm <;> decide
  · intro hurl hm hb
    have hmem := hpos (Or.inl hm) "token".toList (by rw [hb]; exact List.mem_singleton_self _)
    have hbase : baseURL input = "http://x.com/a".toList := by
      rw [baseURL_eq_takeWhile, hurl]
      decide
    rw [hbase] at hmem
    exact hmem

/-- C6, as the specification states it, fails: for the record
`url = "http://site.test/api/v1/user?id=5"`, method `GET`, query parameter `id`, the string
`"http://site.test/api/v1/user/FUZZ/user"` is not in the output. -/
theorem endpointSite_listed_set_fails :
    ¬ ("http://site.test/api/v1/user".toList ∈ generateFuzzedURLsForInput endpointSite ∧
        "http://site.test/api/v1/user?id=FUZZ".toList ∈ generateFuzzedURLsForInput endpointSite ∧
        "http://site.test/api/v1/user/FUZZ/user".toList ∈
          generateFuzzedURLsForInput endpointSite) := by
  decide

/-- C6, amended: for that record the output is exactly the base URL, `base?id=FUZZ` twice
(the per-name and the combined candidate) and the three path candidates of the segments
`api`, `v1` and `user`; it has the base URL, `base?id=FUZZ` and
`"http://site.test/api/FUZZ/user"`, and it has neither
`"http://site.test/api/v1/user/FUZZ/user"` nor a path candidate with a query string. -/
theorem endpointSite_output :
    generateFuzzedURLsForInput endpointSite =
      ["http://site.test/api/v1/user".toList,
        "http://site.test/api/v1/user?id=FUZZ".toList,
        "http://site.test/api/v1/user?id=FUZZ".toList,
        "http://site.test/FUZZ/v1/user".toList,
        "http://site.test/api/FUZZ/user".toList,
        "http://site.test/api/v1/FUZZ".toList] ∧
    "http://site.test/api/v1/user".toList ∈ generateFuzzedURLsForInput endpointSite ∧
    "http://site.test/api/v1/user?id=FUZZ".toList ∈ generateFuzzedURLsForInput endpointSite ∧
    "http://site.test/api/FUZZ/user".toList ∈ generateFuzzedURLsForInput endpointSite ∧
    "http://site.test/api/v1/user/FUZZ/user".toList ∉ generateFuzzedURLsForInput endpointSite ∧
    (∀ url ∈ generateFuzzedURLsForInput endpointSite,
      ¬ "http://site.test/api/v1/FUZZ?".toList <+: url) := by
  decide

/-- C8: two records with the same `url`, `method`, `queryParams` and `bodyParams` give the
same output, whatever their headers and type. -/
theorem output_depends_on_four_fields (a b : JSluiceOutput) (hurl : a.URL = b.URL)
    (hmethod : a.Method = b.Method) (hquery : a.QueryParams = b.QueryParams)
    (hbody : a.BodyParams = b.BodyParams) :
    generateFuzzedURLsForInput a = generateFuzzedURLsForInput b := by
  have hbase : baseURL a = baseURL b := by
    rw [baseURL_eq_takeWhile, baseURL_eq_takeWhile, hurl]
  rw [generate_closed_form, generate_closed_form, hbase, hmethod, hquery, hbody]

/-- C8, at a record and the same record with a header and a type set. -/
theorem output_depends_on_four_fields_example :
    endpointSite.URL = endpointSiteTagged.URL ∧
    endpointSite.Method = endpointSiteTagged.Method ∧
    endpointSite.QueryParams = endpointSiteTagged.QueryParams ∧
    endpointSite.BodyParams = endpointSiteTagged.BodyParams ∧
    endpointSite.Headers ≠ endpointSiteTagged.Headers ∧
    endpointSite.Type_ ≠ endpointSiteTagged.Type_ ∧
    generateFuzzedURLsForInput endpointSite = generateFuzzedURLsForInput endpointSiteTagged :=
  ⟨rfl, rfl, rfl, rfl, by decide, by decide,
    output_depends_on_four_fields endpointSite endpointSiteTagged rfl rfl rfl rfl⟩

/-- C9: nothing is deduplicated.  The output has
`1 + |queryParams| + (1 if queryParams is non-empty) + (for POST or PUT: |bodyParams| +
(1 if bodyParams is non-empty)) + max(0, k - 3)` elements, `k` being the number of
`/`-segments of the base URL; and with a single query parameter `p` the string
`base?p=FUZZ` occurs at least twice. -/
theorem no_deduplication (input : JSluiceOutput) :
    ((generateFuzzedURLsForInput input).length : Int) =
      1 + input.QueryParams.length + (if input.QueryParams ≠ [] then 1 else 0)
        + (if input.Method = "POST".toList ∨ input.Method = "PUT".toList then
            (input.BodyParams.length : Int) + (if input.BodyParams ≠ [] then 1 else 0)
          else 0)
        + max 0 (((Split (baseURL input) "/".toList).length : Int) - 3) ∧
    (∀ p, input.QueryParams = [p] →
      2 ≤ (generateFuzzedURLsForInput input).count
        (baseURL input ++ "?".toList ++ p ++ "=FUZZ".toList)) := by
  refine ⟨?_, ?_⟩
  · rw [generate_closed_form]
    simp only [List.length_append, List.length_map, List.length_cons, List.length_nil,
      ite_list_length, Nat.zero_add, List.length_range']
    show _ = _ + max 0 (((Split (baseURL input) ['/']).length : Int) - 3)
    generalize (Split (baseURL input) ['/']).length = k
    push_cast
    split_ifs <;> omega
  · intro p hp
    obtain ⟨rest, hrest⟩ := generate_query_shape input (by rw [hp]; simp)
    obtain ⟨h1, -, -, -, h5, -, -⟩ := marker_literals
    rw [hrest, hp, h1, h5]
    simp [Join, List.count_cons]

/-! ## The driver: what every execution keeps unchanged -/

theorem foldl_append_each (sent urls : List Str) :
    urls.foldl (fun sent url => sent ++ [url]) sent = sent ++ urls := by
  induction urls generalizing sent with
  | nil => simp
  | cons u us ih => simp [ih]

theorem worker_eq_flatMap (inputs : List JSluiceOutput) :
    worker inputs = inputs.flatMap generateFuzzedURLsForInput := by
  unfold worker
  have h : ∀ sent : List Str,
      inputs.foldl
          (fun sent input =>
            (generateFuzzedURLsForInput input).foldl (fun sent url => sent ++ [url]) sent)
          sent
        = sent ++ inputs.flatMap generateFuzzedURLsForInput := by
    induction inputs with
    | nil => simp
    | cons a rest ih =>
      intro sent
      rw [List.foldl_cons, foldl_append_each, ih, List.flatMap_cons, List.append_assoc]
  simpa using h []

theorem start_workers (inputs : List JSluiceOutput) (concurrent : Int) :
    (start inputs concurrent).workers = List.replicate concurrent.toNat (worker inputs) := by
  simp [start, List.map_const']

theorem receive_eq_some (d d' : Driver) (i : Nat) (h : receive d i = some d') :
    ∃ url rest, d.workers[i]? = some (url :: rest) ∧
      d' = { workers := d.workers.set i rest, received := d.received ++ [(i, url)] } := by
  unfold receive at h
  split at h
  · next url rest hw =>
    exact ⟨url, rest, hw, (Option.some.inj h).symm⟩
  · exact absurd h (by simp)

theorem flatten_set_perm (ws : List (List Str)) (i : Nat) (url : Str) (rest : List Str)
    (h : ws[i]? = some (url :: rest)) :
    ws.flatten.Perm (url :: (ws.set i rest).flatten) := by
  induction ws generalizing i with
  | nil => simp at h
  | cons a t ih =>
    cases i with
    | zero =>
      simp only [List.getElem?_cons_zero, Option.some.injEq] at h
      subst h
      simp
    | succ i =>
      simp only [List.getElem?_cons_succ] at h
      have := ih i h
      simp only [List.flatten_cons, List.set_cons_succ]
      exact (List.Perm.append_left a this).trans List.perm_middle

theorem receive_perm (d d' : Driver) (i : Nat) (h : receive d i = some d') :
    (d'.received.map Prod.snd ++ d'.workers.flatten).Perm
      (d.received.map Prod.snd ++ d.workers.flatten) := by
  obtain ⟨url, rest, hw, rfl⟩ := receive_eq_some d d' i h
  have hp := flatten_set_perm d.workers i url rest hw
  simp only [List.map_append, List.map_cons, List.map_nil, List.append_assoc,
    List.singleton_append]
  exact (List.Perm.append_left _ hp).symm

theorem receive_from (d d' : Driver) (i : Nat) (h : receive d i = some d') (j : Nat) :
    receivedFrom d' j ++ (d'.workers[j]?).getD [] =
      receivedFrom d j ++ (d.workers[j]?).getD [] := by
  obtain ⟨url, rest, hw, rfl⟩ := receive_eq_some d d' i h
  have hi : i < d.workers.length := by
    rcases Nat.lt_or_ge i d.workers.length with hlt | hge
    · exact hlt
    · rw [List.getElem?_eq_none hge] at hw
      exact absurd hw (by simp)
  unfold receivedFrom
  by_cases hij : i = j
  · subst hij
    simp [List.filter_append, List.getElem?_set_self hi, hw]
  · have hne : (i == j) = false := by simpa using hij
    simp [List.filter_append, List.getElem?_set_ne hij, hne]

theorem receive_length (d d' : Driver) (i : Nat) (h : receive d i = some d') :
    d'.received.length = d.received.length + 1 := by
  obtain ⟨url, rest, -, rfl⟩ := receive_eq_some d d' i h
  simp

theorem runSchedule_keeps (d d' : Driver) (schedule : List Nat)
    (h : runSchedule d schedule = some d') :
    (d'.received.map Prod.snd ++ d'.workers.flatten).Perm
        (d.received.map Prod.snd ++ d.workers.flatten) ∧
      (∀ j, receivedFrom d' j ++ (d'.workers[j]?).getD [] =
        receivedFrom d j ++ (d.workers[j]?).getD []) ∧
      d'.received.length = d.received.length + schedule.length := by
  induction schedule generalizing d with
  | nil =>
    simp only [runSchedule, Option.some.injEq] at h
    subst h
    exact ⟨List.Perm.refl _, fun _ => rfl, rfl⟩
  | cons i rest ih =>
    simp only [runSchedule] at h
    cases hr : receive d i with
    | none => rw [hr] at h; exact absurd h (by simp)
    | some d1 =>
      rw [hr] at h
      obtain ⟨h1, h2, h3⟩ := ih d1 h
      refine ⟨h1.trans (receive_perm d d1 i hr), ?_, ?_⟩
      · intro j
        rw [h2 j, receive_from d d1 i hr j]
      · rw [h3, receive_length d d1 i hr, List.length_cons]
        omega

theorem runSchedule_append (d : Driver) (s1 s2 : List Nat) :
    runSchedule d (s1 ++ s2) = (runSchedule d s1).bind (fun d' => runSchedule d' s2) := by
  induction s1 generalizing d with
  | nil => simp [runSchedule]
  | cons i rest ih =>
    simp only [List.cons_append, runSchedule]
    cases receive d i with
    | none => simp
    | some d1 => simp [ih]

theorem finished_iff (d : Driver) : finished d = true ↔ d.workers.flatten = [] := by
  unfold finished
  rw [List.flatten_eq_nil_iff, List.all_eq_true]
  simp

theorem exists_pending (d : Driver) (h : finished d = false) :
    ∃ (i : Nat) (url : Str) (rest : List Str), d.workers[i]? = some (url :: rest) := by
  have hne : ¬ d.workers.flatten = [] := by
    rw [← finished_iff, h]
    simp
  rw [List.flatten_eq_nil_iff] at hne
  push_neg at hne
  obtain ⟨w, hw, hwne⟩ := hne
  obtain ⟨i, hi⟩ := List.mem_iff_getElem?.1 hw
  cases w with
  | nil => exact absurd rfl hwne
  | cons url rest => exact ⟨i, url, rest, hi⟩

/-- From every state the handoffs still due can take place one after the other, after which
every worker has finished. -/
theorem runSchedule_completes (d : Driver) :
    ∃ schedule d', runSchedule d schedule = some d' ∧ finished d' = true := by
  generalize hm : d.workers.flatten.length = m
  induction m generalizing d with
  | zero =>
    refine ⟨[], d, rfl, ?_⟩
    rw [finished_iff]
    exact List.length_eq_zero.1 hm
  | succ m ih =>
    cases hf : finished d with
    | true => exact ⟨[], d, rfl, hf⟩
    | false =>
      obtain ⟨i, url, rest, hw⟩ := exists_pending d hf
      have hr : receive d i =
          some { workers := d.workers.set i rest, received := d.received ++ [(i, url)] } := by
        unfold receive
        rw [hw]
      have hlen := (flatten_set_perm d.workers i url rest hw).length_eq
      rw [List.length_cons, hm] at hlen
      obtain ⟨schedule, d', hrun, hfin⟩ :=
        ih { workers := d.workers.set i rest, received := d.received ++ [(i, url)] }
          (by simpa using hlen.symm)
      refine ⟨i :: schedule, d', ?_, hfin⟩
      simp only [runSchedule, hr]
      exact hrun

theorem coe_flatten_replicate (n : Nat) (w : List Str) :
    ((List.replicate n w).flatten : Multiset Str) = n • (w : Multiset Str) := by
  induction n with
  | zero => simp
  | succ n ih =>
    rw [List.replicate_succ, List.flatten_cons, ← Multiset.coe_add, ih, succ_nsmul, add_comm]

theorem length_flatMap_generate (inputs : List JSluiceOutput) :
    (inputs.flatMap generateFuzzedURLsForInput).length =
      (inputs.map (fun input => (generateFuzzedURLsForInput input).length)).sum := by
  induction inputs with
  | nil => rfl
  | cons a rest ih => simp [List.flatMap_cons, ih]

theorem finished_pending_nil (d : Driver) (h : finished d = true) (j : Nat) :
    (d.workers[j]?).getD [] = [] := by
  rw [finished_iff, List.flatten_eq_nil_iff] at h
  cases hj : d.workers[j]? with
  | none => rfl
  | some w => exact h w (List.getElem?_mem hj)

theorem generate_eq_some (inputs : List JSluiceOutput) (concurrent : Int)
    (schedule : List Nat) (result : List Str × Option Str)
    (h : GenerateFuzzedURLs inputs concurrent schedule = some result) :
    ∃ d, runSchedule (start inputs concurrent) schedule = some d ∧ finished d = true ∧
      result = (d.received.map Prod.snd, none) := by
  unfold GenerateFuzzedURLs at h
  cases hr : runSchedule (start inputs concurrent) schedule with
  | none => rw [hr] at h; exact absurd h (by simp)
  | some d =>
    rw [hr] at h
    cases hf : finished d with
    | false => simp [hf] at h
    | true =>
      simp only [hf, if_true, Option.some.injEq] at h
      exact ⟨d, rfl, hf, h.symm⟩

/-- What a finished execution has received: a rearrangement of the sends of all workers,
and from each worker exactly its sends, in their order. -/
theorem finished_received (inputs : List JSluiceOutput) (concurrent : Int)
    (schedule : List Nat) (d : Driver)
    (hrun : runSchedule (start inputs concurrent) schedule = some d)
    (hfin : finished d = true) :
    (d.received.map Prod.snd).Perm
        (List.replicate concurrent.toNat (worker inputs)).flatten ∧
      (∀ i, i < concurrent.toNat → receivedFrom d i = worker inputs) := by
  obtain ⟨hperm, hfrom, -⟩ := runSchedule_keeps _ _ _ hrun
  constructor
  · rw [(finished_iff d).1 hfin, start_workers] at hperm
    simpa [start] using hperm
  · intro i hi
    have := hfrom i
    rw [finished_pending_nil d hfin i, start_workers] at this
    simpa [receivedFrom, start, hi] using this

theorem length_flatten_replicate (n : Nat) (w : List Str) :
    (List.replicate n w).flatten.length = n * w.length := by
  induction n with
  | zero => simp
  | succ n ih =>
    rw [List.replicate_succ, List.flatten_cons, List.length_append, ih, Nat.succ_mul]
    omega

theorem count_flatten_replicate (n : Nat) (w : List Str) (url : Str) :
    ((List.replicate n w).flatten).count url = n * w.count url := by
  induction n with
  | zero => simp
  | succ n ih =>
    rw [List.replicate_succ, List.flatten_cons, List.count_append, ih, Nat.succ_mul]
    omega

theorem receivedFrom_sublist (d : Driver) (i : Nat) :
    (receivedFrom d i).Sublist (d.received.map Prod.snd) :=
  (List.filter_sublist _).map _

/-! ## The driver: the claims -/

/-- C7: with `concurrent ≥ 1` workers, every worker is started over the whole input list and
sends the concatenation of the per-record outputs.  Every execution in progress has at most
`concurrent * |one pass|` handoffs behind it, returns nothing while a worker is unfinished,
and can be completed.  Every returned result has a nil error and is, as a multiset,
`concurrent` copies of one sequential pass: each string occurs `concurrent` times as often,
the length is `concurrent` times the sum of the per-record lengths, and what was received
from each worker is one pass in its order, so one pass is a subsequence of the result. -/
theorem driver_duplicates (inputs : List JSluiceOutput) (concurrent : Int)
    (h : 1 ≤ concurrent) :
    worker inputs = inputs.flatMap generateFuzzedURLsForInput ∧
    ((start inputs concurrent).workers.length : Int) = concurrent ∧
    (∀ pending ∈ (start inputs concurrent).workers, pending = worker inputs) ∧
    (∀ schedule d, runSchedule (start inputs concurrent) schedule = some d →
      (schedule.length : Int) ≤ concurrent * ((worker inputs).length : Int) ∧
      (finished d = false → GenerateFuzzedURLs inputs concurrent schedule = none) ∧
      ∃ more urls,
        GenerateFuzzedURLs inputs concurrent (schedule ++ more) = some (urls, none)) ∧
    (∀ schedule urls err,
      GenerateFuzzedURLs inputs concurrent schedule = some (urls, err) →
      err = none ∧
      (urls : Multiset Str) =
        concurrent.toNat •
          ((inputs.flatMap generateFuzzedURLsForInput : List Str) : Multiset Str) ∧
      (∀ url, (urls.count url : Int) =
        concurrent * ((inputs.flatMap generateFuzzedURLsForInput).count url : Int)) ∧
      (urls.length : Int) =
        concurrent *
          (((inputs.map (fun input => (generateFuzzedURLsForInput input).length)).sum : Nat) :
            Int) ∧
      schedule.length = urls.length ∧
      (inputs.flatMap generateFuzzedURLsForInput).Sublist urls ∧
      ∃ d, runSchedule (start inputs concurrent) schedule = some d ∧
        urls = d.received.map Prod.snd ∧
        ∀ i : Nat, (i : Int) < concurrent →
          receivedFrom d i = inputs.flatMap generateFuzzedURLsForInput) := by
  have hn : (concurrent.toNat : Int) = concurrent := Int.toNat_of_nonneg (by omega)
  have hw := worker_eq_flatMap inputs
  refine ⟨hw, ?_, ?_, ?_, ?_⟩
  · rw [start_workers, List.length_replicate, hn]
  · intro pending hp
    rw [start_workers] at hp
    exact List.eq_of_mem_replicate hp
  · intro schedule d hrun
    obtain ⟨hperm, -, hlen⟩ := runSchedule_keeps _ _ _ hrun
    refine ⟨?_, ?_, ?_⟩
    · have hl := hperm.length_eq
      rw [start_workers] at hl
      simp only [start, List.length_append, List.length_map, List.length_nil, Nat.zero_add,
        length_flatten_replicate] at hl hlen
      have hle : schedule.length ≤ concurrent.toNat * (worker inputs).length := by omega
      rw [← hn]
      exact_mod_cast hle
    · intro hf
      unfold GenerateFuzzedURLs
      rw [hrun]
      simp [hf]
    · obtain ⟨more, d', hmore, hfin⟩ := runSchedule_completes d
      refine ⟨more, d'.received.map Prod.snd, ?_⟩
      unfold GenerateFuzzedURLs
      rw [runSchedule_append, hrun]
      simp [hmore, hfin]
  · intro schedule urls err hres
    obtain ⟨d, hrun, hfin, hpair⟩ := generate_eq_some _ _ _ _ hres
    obtain ⟨hurls, herr⟩ := Prod.mk.inj hpair
    obtain ⟨hperm, hfrom⟩ := finished_received _ _ _ _ hrun hfin
    obtain ⟨-, -, hlen⟩ := runSchedule_keeps _ _ _ hrun
    rw [← hurls] at hperm
    have hms : (urls : Multiset Str) =
        concurrent.toNat •
          ((inputs.flatMap generateFuzzedURLsForInput : List Str) : Multiset Str) := by
      rw [← hw, ← coe_flatten_replicate]
      exact Multiset.coe_eq_coe.2 hperm
    have hcount : ∀ url, urls.count url =
        concurrent.toNat * (inputs.flatMap generateFuzzedURLsForInput).count url := by
      intro url
      have e : urls.count url = ((List.replicate concurrent.toNat (worker inputs)).flatten).count url :=
        hperm.countP_eq _
      rw [e, count_flatten_replicate, hw]
    have hlength : urls.length =
        concurrent.toNat *
          (inputs.map (fun input => (generateFuzzedURLsForInput input).length)).sum := by
      rw [hperm.length_eq, length_flatten_replicate, hw, length_flatMap_generate]
    have h0 : receivedFrom d 0 = worker inputs := hfrom 0 (by omega)
    refine ⟨herr, hms, ?_, ?_, ?_, ?_, d, hrun, hurls, ?_⟩
    · intro url
      rw [← hn]
      exact_mod_cast hcount url
    · rw [← hn]
      exact_mod_cast hlength
    · rw [hurls, List.length_map, hlen]
      simp [start]
    · rw [← hw, ← h0, hurls]
      exact receivedFrom_sublist d 0
    · intro i hi
      rw [← hw]
      exact hfrom i (by omega)

/-- C7, at two workers over the record `"http://x.com/a/b/c"`. -/
theorem driver_duplicates_example :
    (1 : Int) ≤ 2 ∧
    GenerateFuzzedURLs [endpointPath] 2 scheduleTwo = some (receivedTwo, none) ∧
    (∀ url, (receivedTwo.count url : Int) =
      2 * (([endpointPath].flatMap generateFuzzedURLsForInput).count url : Int)) ∧
    (receivedTwo.length : Int) =
      2 * ((([endpointPath].map
        (fun input => (generateFuzzedURLsForInput input).length)).sum : Nat) : Int) :=
  ⟨by decide, by decide,
    ((driver_duplicates [endpointPath] 2 (by decide)).2.2.2.2 scheduleTwo receivedTwo none
      (by decide)).2.2.1,
    ((driver_duplicates [endpointPath] 2 (by decide)).2.2.2.2 scheduleTwo receivedTwo none
      (by decide)).2.2.2.1⟩

/-- C10: with `concurrent ≤ 0` no worker is started and no handoff can take place; the only
execution is the one without handoffs, and it returns the empty collection and a nil error,
whatever the input records are. -/
theorem no_workers_no_output (inputs : List JSluiceOutput) (concurrent : Int)
    (h : concurrent ≤ 0) :
    (start inputs concurrent).workers = [] ∧
    (∀ i, receive (start inputs concurrent) i = none) ∧
    GenerateFuzzedURLs inputs concurrent [] = some ([], none) ∧
    (∀ schedule result, GenerateFuzzedURLs inputs concurrent schedule = some result →
      schedule = [] ∧ result = ([], none)) := by
  have hz : concurrent.toNat = 0 := Int.toNat_eq_zero.2 h
  have hs : start inputs concurrent = { workers := [], received := [] } := by
    simp [start, hz]
  have hrecv : ∀ i, receive (start inputs concurrent) i = none := by
    intro i
    rw [hs]
    rfl
  have hnil : GenerateFuzzedURLs inputs concurrent [] = some ([], none) := by
    unfold GenerateFuzzedURLs
    rw [hs]
    rfl
  refine ⟨by rw [hs], hrecv, hnil, ?_⟩
  intro schedule result hres
  cases schedule with
  | nil =>
    rw [hnil] at hres
    exact ⟨rfl, (Option.some.inj hres).symm⟩
  | cons i rest =>
    unfold GenerateFuzzedURLs at hres
    simp [runSchedule, hrecv i] at hres

/-- C10, at `concurrent = -1` over a record that has candidates. -/
theorem no_workers_no_output_example :
    (-1 : Int) ≤ 0 ∧
    generateFuzzedURLsForInput endpointSite ≠ [] ∧
    GenerateFuzzedURLs [endpointSite] (-1) [] = some ([], none) :=
  ⟨by decide, by decide, (no_workers_no_output [endpointSite] (-1) (by decide)).2.2.1⟩

end GoFuzz
